import Mathlib

/-!
# Verification of the gene-metrics engine (GeneProfile.py)

A shallow embedding of the gene-level metrics engine: the codon-level
mutation classifier (`characterize_SNPs` and its wrapper), the per-scaffold
threshold iterators (`iterate_clonT_mms`, `iterate_covT_mms`), the batch
scheduler (`iterate_commands`), and the worker/aggregator harness
(`profile_genes_wrapper`, `calculate_gene_metrics`).

Modelling conventions:
* DNA bases are the four-constructor type `Nuc`; sequences are `List Nuc`.
* Python dicts and pandas Series are association lists `List (Nat × α)`;
  a dict update overwrites the binding of an existing key.  The sorted
  Series yielded by the iterators are built by sorting the keys, exactly
  as the source builds `inds = sorted(p2c.keys())`.
* Coverage counts are natural numbers (read depths); scheduler costs are
  exact rationals standing for the Python floats.
* Fallible Python code (IndexError / KeyError on sequence and dict access,
  exceptions raised while profiling a scaffold, the assert in
  `Characterize_SNPs_wrapper`) is modelled with `Option` / `Except String`.
* A Python value that may be either a str or an int (the `direction`
  column, which holds strings for prodigal input and ints for genbank
  input) is the sum type `PyVal`; `pyEq` is Python `==`, which is `false`
  across the two types.
-/

/-- A DNA nucleotide. -/
inductive Nuc : Type
  | A : Nuc
  | C : Nuc
  | G : Nuc
  | T : Nuc
deriving DecidableEq, Repr

/-- Watson-Crick complement of a base. -/
def Nuc.complement : Nuc → Nuc
  | .A => .T
  | .T => .A
  | .C => .G
  | .G => .C

/-- Biopython `Seq.reverse_complement()`: complement every base and reverse. -/
def reverse_complement (s : List Nuc) : List Nuc :=
  (s.map Nuc.complement).reverse

/-- The standard genetic code (NCBI translation table 1), as used by
Biopython `Seq.translate()` with default arguments; the stop symbol is `*`. -/
def codon2aa : Nuc → Nuc → Nuc → Char
  | .T, .T, .T => 'F' | .T, .T, .C => 'F' | .T, .T, .A => 'L' | .T, .T, .G => 'L'
  | .C, .T, .T => 'L' | .C, .T, .C => 'L' | .C, .T, .A => 'L' | .C, .T, .G => 'L'
  | .A, .T, .T => 'I' | .A, .T, .C => 'I' | .A, .T, .A => 'I' | .A, .T, .G => 'M'
  | .G, .T, .T => 'V' | .G, .T, .C => 'V' | .G, .T, .A => 'V' | .G, .T, .G => 'V'
  | .T, .C, .T => 'S' | .T, .C, .C => 'S' | .T, .C, .A => 'S' | .T, .C, .G => 'S'
  | .C, .C, .T => 'P' | .C, .C, .C => 'P' | .C, .C, .A => 'P' | .C, .C, .G => 'P'
  | .A, .C, .T => 'T' | .A, .C, .C => 'T' | .A, .C, .A => 'T' | .A, .C, .G => 'T'
  | .G, .C, .T => 'A' | .G, .C, .C => 'A' | .G, .C, .A => 'A' | .G, .C, .G => 'A'
  | .T, .A, .T => 'Y' | .T, .A, .C => 'Y' | .T, .A, .A => '*' | .T, .A, .G => '*'
  | .C, .A, .T => 'H' | .C, .A, .C => 'H' | .C, .A, .A => 'Q' | .C, .A, .G => 'Q'
  | .A, .A, .T => 'N' | .A, .A, .C => 'N' | .A, .A, .A => 'K' | .A, .A, .G => 'K'
  | .G, .A, .T => 'D' | .G, .A, .C => 'D' | .G, .A, .A => 'E' | .G, .A, .G => 'E'
  | .T, .G, .T => 'C' | .T, .G, .C => 'C' | .T, .G, .A => '*' | .T, .G, .G => 'W'
  | .C, .G, .T => 'R' | .C, .G, .C => 'R' | .C, .G, .A => 'R' | .C, .G, .G => 'R'
  | .A, .G, .T => 'S' | .A, .G, .C => 'S' | .A, .G, .A => 'R' | .A, .G, .G => 'R'
  | .G, .G, .T => 'G' | .G, .G, .C => 'G' | .G, .G, .A => 'G' | .G, .G, .G => 'G'

/-- Biopython `Seq.translate()`: translate_seq successive codons; a trailing
partial codon is dropped. -/
def translate_seq : List Nuc → List Char
  | a :: b :: c :: rest => codon2aa a b c :: translate_seq rest
  | _ => []

/-- A Python value that is either a str or an int (the `direction` column). -/
inductive PyVal : Type
  | str : String → PyVal
  | int : Int → PyVal
deriving DecidableEq, Repr

/-- Python `==` on such values: values of different types compare unequal. -/
def pyEq : PyVal → PyVal → Bool
  | .str a, .str b => a == b
  | .int a, .int b => a == b
  | _, _ => false

/-- One row of the gene table `Gdb` (the compound/incomplete flag is not
used by the classifier and is not modelled).  `stop` is the source's
`end` column (a Lean keyword); both coordinates are 0-based inclusive. -/
structure GeneRow : Type where
  gene : String
  scaffold : String
  direction : PyVal
  start : Nat
  stop : Nat
deriving DecidableEq, Repr

/-- One row of the cumulative SNV table.  `index` is the pandas row index
(used by `.sort_index()`), `mm` the mismatch threshold, `allele_count`
the `morphia`/`allele_count` column (already cast to int). -/
structure SNVRow : Type where
  index : Nat
  scaffold : String
  position : Nat
  mm : Nat
  refBase : Nuc
  conBase : Nuc
  varBase : Nuc
  cryptic : Bool
  allele_count : Nat
deriving DecidableEq, Repr

/-- One output row of `characterize_SNPs`. -/
structure SNPOutRow : Type where
  position : Nat
  mutation_type : String
  mutation : String
  gene : String
deriving DecidableEq, Repr

/-- `gdb[(gdb['start'] <= row['position']) & (gdb['end'] >= row['position'])]`:
the gene rows whose (inclusive) interval contains the position. -/
def gene_filter (gdb : List GeneRow) (pos : Nat) : List GeneRow :=
  gdb.filter (fun g => decide (g.start ≤ pos ∧ pos ≤ g.stop))

/-- Lines 486-488: fetch the gene sequence from the global `gene2sequence`
dict (`none` models a KeyError) and reverse-complement it when the
direction column equals the string `-1`. -/
def reference_oriented_sequence (g2s : String → Option (List Nuc))
    (g : GeneRow) : Option (List Nuc) :=
  (g2s g.gene).map (fun s =>
    if pyEq g.direction (PyVal.str "-1") then reverse_complement s else s)

/-- Lines 491-496: build the mutant sequence.  `snp_start` is
`position - start`; the variant base is written at that offset, and if the
written base equals the original base there, the consensus base is written
instead.  `none` models the IndexError raised when the offset is out of
range of the stored sequence. -/
def mutant_sequence (g2s : String → Option (List Nuc)) (g : GeneRow)
    (row : SNVRow) : Option (List Nuc) :=
  match reference_oriented_sequence g2s g with
  | none => none
  | some original =>
    let snp_start := row.position - g.start
    match (original.set snp_start row.varBase)[snp_start]?,
          original[snp_start]? with
    | some nb, some ob =>
      some (if nb = ob
            then (original.set snp_start row.varBase).set snp_start row.conBase
            else original.set snp_start row.varBase)
    | _, _ => none

/-- Lines 499-504 applied to the original sequence: the amino-acid
sequence translated from the reference-oriented sequence, re-oriented to
the coding strand when the direction column equals the string `-1`. -/
def old_aa_sequence (g2s : String → Option (List Nuc)) (g : GeneRow) :
    Option (List Char) :=
  (reference_oriented_sequence g2s g).map (fun original =>
    if pyEq g.direction (PyVal.str "-1")
    then translate_seq (reverse_complement original)
    else translate_seq original)

/-- Lines 499-504 applied to the mutant sequence. -/
def new_aa_sequence (g2s : String → Option (List Nuc)) (g : GeneRow)
    (row : SNVRow) : Option (List Char) :=
  (mutant_sequence g2s g row).map (fun ns =>
    if pyEq g.direction (PyVal.str "-1")
    then translate_seq (reverse_complement ns)
    else translate_seq ns)

/-- Lines 512-516: the scan `for aa in range(0, len(old_aa_sequence))`
that stops at the first residue where the two translations differ,
returning its index together with the old and new residues. -/
def first_diff : List Char → List Char → Option (Nat × Char × Char)
  | o :: os, n :: ns =>
    if n ≠ o then some (0, o, n)
    else (first_diff os ns).map (fun t => (t.1 + 1, t.2.1, t.2.2))
  | _, _ => none

/-- Lines 472-524, one loop iteration: classify a single variant row
against the gene table.  Zero containing genes gives an intergenic row,
two or more an ambiguous row, exactly one a coding row classified by
translation.  `none` models an exception escaping the iteration. -/
def characterize_SNP_row (g2s : String → Option (List Nuc))
    (gdb : List GeneRow) (row : SNVRow) : Option SNPOutRow :=
  match gene_filter gdb row.position with
  | [] => some ⟨row.position, "I", "", ""⟩
  | [g] =>
    match old_aa_sequence g2s g, new_aa_sequence g2s g row with
    | some old_aa, some new_aa =>
      let snp_start := row.position - g.start
      match first_diff old_aa new_aa with
      | none => some ⟨row.position, "S", "S:" ++ toString snp_start, g.gene⟩
      | some (_, oa, na) =>
        some ⟨row.position, "N",
              "N:" ++ String.mk [oa] ++ toString snp_start ++ String.mk [na],
              g.gene⟩
    | _, _ => none
  | gs => some ⟨row.position, "M", "", String.intercalate "," (gs.map GeneRow.gene)⟩

/-- Lines 465-524: classify every variant row, one output row per input
row; an exception in any iteration aborts the whole call. -/
def characterize_SNPs (g2s : String → Option (List Nuc))
    (gdb : List GeneRow) : List SNVRow → Option (List SNPOutRow)
  | [] => some []
  | row :: rest =>
    match characterize_SNP_row g2s gdb row, characterize_SNPs g2s gdb rest with
    | some r, some rs => some (r :: rs)
    | _, _ => none

/-- `drop_duplicates(subset=['scaffold', 'position'], keep='last')`:
keep, for every (scaffold, position) key, the last row bearing it. -/
def drop_duplicates_keep_last : List SNVRow → List SNVRow
  | [] => []
  | r :: rest =>
    if rest.any (fun x => x.scaffold == r.scaffold && x.position == r.position)
    then drop_duplicates_keep_last rest
    else r :: drop_duplicates_keep_last rest

/-- Lines 438-440 of `Characterize_SNPs_wrapper`: deduplicate keeping the
last (highest-mm, because the input is mm-sorted) row per position, then
`.sort_index()` restores the original row order.  The dropped `mm` column
and the int casts are identity operations in this model. -/
def Characterize_SNPs_wrapper_dedup (Ldb : List SNVRow) : List SNVRow :=
  (drop_duplicates_keep_last Ldb).insertionSort (fun a b => a.index ≤ b.index)

/-- Lines 443-451: remove cryptic rows and keep allele counts in (0, 2]. -/
def Characterize_SNPs_wrapper_filtered (Ldb : List SNVRow) : List SNVRow :=
  ((Characterize_SNPs_wrapper_dedup Ldb).filter
      (fun r => r.cryptic == false)).filter
    (fun r => decide (0 < r.allele_count ∧ r.allele_count ≤ 2))

/-- Lines 424-463: the wrapper.  Returns the filtered variant table
paired with the classifier output (the final `pd.merge` only joins the
two on `position` and is not modelled further); an empty filtered table
short-circuits to an empty result, and the assert on the two lengths
raises `AssertionError`. -/
def Characterize_SNPs_wrapper (g2s : String → Option (List Nuc))
    (gdb : List GeneRow) (Ldb : List SNVRow) :
    Except String (List SNVRow × List SNPOutRow) :=
  let Sdb := Characterize_SNPs_wrapper_filtered Ldb
  if Sdb.isEmpty then Except.ok ([], [])
  else
    match characterize_SNPs g2s gdb Sdb with
    | none => Except.error "Exception"
    | some sdb =>
      if Sdb.length = sdb.length then Except.ok (Sdb, sdb)
      else Except.error "AssertionError"

/-- Line 633 of `parse_genbank_genes`: the genbank path stores
`feature.location.strand`, an int, in the direction column. -/
def parse_genbank_direction (strand : Int) : PyVal :=
  PyVal.int strand

lemma translate_seq_ATGAAACCC :
    translate_seq [Nuc.A, Nuc.T, Nuc.G, Nuc.A, Nuc.A, Nuc.A, Nuc.C, Nuc.C, Nuc.C]
      = ['M', 'K', 'P'] := by decide

lemma translate_seq_ATGTAACCC :
    translate_seq [Nuc.A, Nuc.T, Nuc.G, Nuc.T, Nuc.A, Nuc.A, Nuc.C, Nuc.C, Nuc.C]
      = ['M', '*', 'P'] := by decide

/-- A pandas Series / Python dict with integer keys, as an association
list.  `List.lookup` is key access. -/
abbrev Series (α : Type) : Type := List (Nat × α)

/-- Python dict assignment `d[k] = v`: overwrite the binding of `k` if
present, insert it otherwise.  (Insertion order is irrelevant here: every
consumer sorts the keys before reading the dict out.) -/
def dict_update {α : Type} (d : Series α) (k : Nat) (v : α) : Series α :=
  (k, v) :: d.filter (fun kv => kv.1 ≠ k)

/-- `pd.Series(data = vals, index = np.array(inds))` built from
`inds = sorted(p2c.keys())`: the dict read out in ascending key order. -/
def sorted_series {α : Type} [Inhabited α] (d : Series α) : Series α :=
  ((d.map Prod.fst).insertionSort (· ≤ ·)).map
    (fun k => (k, ((d.lookup k).getD default)))

/-- Lines 354-364 of `iterate_clonT_mms`: process the sorted threshold
keys in order; at each key overwrite `p2c` with that threshold's
per-position values and yield the accumulated dict, sorted by position. -/
def iterate_clonT_go {α : Type} [Inhabited α] (clonT : List (Nat × Series α)) :
    List Nat → Series α → List (Nat × Series α)
  | [], _ => []
  | mm :: rest, p2c =>
    let p2c' := ((clonT.lookup mm).getD []).foldl
      (fun d kv => dict_update d kv.1 kv.2) p2c
    (mm, sorted_series p2c') :: iterate_clonT_go clonT rest p2c'

/-- Lines 351-364: the diversity-mode threshold iterator. -/
def iterate_clonT_mms {α : Type} [Inhabited α]
    (clonT : List (Nat × Series α)) : List (Nat × Series α) :=
  iterate_clonT_go clonT ((clonT.map Prod.fst).insertionSort (· ≤ ·)) []

/-- The value a series holds at a position, a missing position reading as
zero (`fill_value=0`). -/
def series_val (s : Series Nat) (p : Nat) : Nat :=
  (s.lookup p).getD 0

/-- `counts.add(count, fill_value=0)`: the pandas union-and-sum of two
series, indexed by the sorted union of the two key sets. -/
def series_add (a b : Series Nat) : Series Nat :=
  (((a.map Prod.fst ++ b.map Prod.fst).dedup).insertionSort (· ≤ ·)).map
    (fun k => (k, series_val a k + series_val b k))

/-- Lines 368-372 of `iterate_covT_mms`: process the sorted threshold keys
in order, adding each threshold's counts into the running total and
yielding the total so far. -/
def iterate_covT_go (covT : List (Nat × Series Nat)) :
    List Nat → Series Nat → List (Nat × Series Nat)
  | [], _ => []
  | mm :: rest, counts =>
    let counts' := series_add counts ((covT.lookup mm).getD [])
    (mm, counts') :: iterate_covT_go covT rest counts'

/-- Lines 366-372: the coverage-mode threshold iterator. -/
def iterate_covT_mms (covT : List (Nat × Series Nat)) :
    List (Nat × Series Nat) :=
  iterate_covT_go covT ((covT.map Prod.fst).insertionSort (· ≤ ·)) []

/-- Specification wording of C2, written from the spec text: `v` is the
value recorded for position `p` at the highest threshold satisfying `P`
(read with `P := (· ≤ t)`: the highest visited threshold not above `t`)
among the thresholds of `clonT` whose series mentions `p`. -/
def ClonSpec {α : Type} (clonT : List (Nat × Series α)) (P : Nat → Prop)
    (p : Nat) (v : α) : Prop :=
  ∃ mm s, (mm, s) ∈ clonT ∧ P mm ∧ s.lookup p = some v ∧
    ∀ mm' s', (mm', s') ∈ clonT → P mm' → (s'.lookup p).isSome → mm' ≤ mm

/-- Specification wording of C3: the cumulative coverage of position `p`
at threshold `t` is the sum of the per-threshold counts over all
thresholds `≤ t`, missing positions counting as zero. -/
def cumulative_coverage (covT : List (Nat × Series Nat)) (t p : Nat) : Nat :=
  ((covT.filter (fun ms => decide (ms.1 ≤ t))).map
    (fun ms => series_val ms.2 p)).sum

/-- Line 557-559: the linear cost model. -/
def calc_estimated_runtime (pairs : Nat) : ℚ :=
  (pairs : ℚ) * (1 / 100)

/-- Lines 534-555 of `iterate_commands`: walk the scaffold groups in
order, skipping scaffolds outside `scaffolds_to_profile`, accumulating
estimated seconds, cutting a batch whenever the accumulated seconds reach
the target, and always emitting the final (possibly empty) batch. -/
def iterate_commands_go (s2g : String → Nat) (scaffolds_to_profile : List String)
    (SECONDS : ℚ) : List String → ℚ → List String → List (List String)
  | [], _, cmds => [cmds]
  | scaffold :: rest, seconds, cmds =>
    if scaffold ∈ scaffolds_to_profile then
      let seconds' := seconds + calc_estimated_runtime (s2g scaffold)
      let cmds' := cmds ++ [scaffold]
      if SECONDS ≤ seconds'
      then cmds' :: iterate_commands_go s2g scaffolds_to_profile SECONDS rest 0 []
      else iterate_commands_go s2g scaffolds_to_profile SECONDS rest seconds' cmds'
    else iterate_commands_go s2g scaffolds_to_profile SECONDS rest seconds cmds

/-- Lines 526-555: the batch scheduler.  The target `SECONDS` is capped at
60 and floored by total estimated cost over (processes + 1); the scaffold
groups of `Gdb.groupby('scaffold')` come in sorted order of the distinct
scaffold names.  A batch is its list of scaffold names (each `Command`
carries only its scaffold plus the shared kwargs). -/
def iterate_commands (scaffolds_to_profile : List String)
    (Gdb : List GeneRow) (s2g : String → Nat) (processes : Nat) :
    List (List String) :=
  let SECONDS : ℚ := min 60
    (((scaffolds_to_profile.map
        (fun s => calc_estimated_runtime (s2g s))).sum) / ((processes : ℚ) + 1))
  let groups := ((Gdb.map GeneRow.scaffold).dedup).insertionSort (· ≤ ·)
  iterate_commands_go s2g scaffolds_to_profile SECONDS groups 0 []

/-- Lines 265-328 of `profile_genes`: the per-scaffold computation.  The
fault-injection sentinel check of lines 279-280 is embedded; the body of
the computation (gene coverage, clonality, density and SNP tables built
from the shared globals) is abstracted as `body`, an arbitrary
computation that may itself raise. -/
def profile_genes {α : Type} (body : String → Except String α)
    (scaffold : String) : Except String α :=
  if scaffold = "FailureScaffoldHeaderTesting" then Except.error "AssertionError"
  else body scaffold

/-- Lines 128-141 of `profile_genes_wrapper`: run `profile_genes` on every
command of a batch; an exception from one scaffold is caught, logged as
`FAILURE GeneException <scaffold>`, and turned into a `none` result, and
the remaining commands of the batch still run.  Returns the per-scaffold
results paired with the log lines. -/
def profile_genes_wrapper {α : Type} (body : String → Except String α) :
    List String → List (Option α) × List String
  | [] => ([], [])
  | s :: rest =>
    let acc := profile_genes_wrapper body rest
    match profile_genes body s with
    | Except.ok v => (some v :: acc.1, acc.2)
    | Except.error _ =>
      (none :: acc.1, ("FAILURE GeneException " ++ s) :: acc.2)

/-- One result message per batch, as published to the result queue. -/
def run_batches {α : Type} (body : String → Except String α)
    (batches : List (List String)) : List (List (Option α)) :=
  batches.map (fun b => (profile_genes_wrapper body b).1)

/-- Lines 226-229 / 248-251: the aggregator keeps every non-null
per-scaffold result of every received message, in order. -/
def aggregate_GeneProfiles {α : Type} (received : List (List (Option α))) :
    List α :=
  received.foldr (fun GPs acc => GPs.filterMap id ++ acc) []

/-- The result-drain loop of `calculate_gene_metrics` (lines 221-229 and
243-251): for each expected result message, dequeue it, bump the progress
bar, and collect the non-null results.  `pbar` is `some` only on the
multi-process path; on the single-process path the loop body reads the
never-assigned local `pbar`, which raises. -/
def gene_result_drain {α : Type} (pbar : Option Unit) :
    List (List (Option α)) → Except String (List α)
  | [] => Except.ok []
  | GPs :: rest =>
    match pbar with
    | none =>
      Except.error "UnboundLocalError: local variable pbar referenced before assignment"
    | some _ =>
      match gene_result_drain pbar rest with
      | Except.ok acc => Except.ok (GPs.filterMap id ++ acc)
      | Except.error e => Except.error e

/-- Lines 209-251 of `calculate_gene_metrics`, reduced to the collected
`GeneProfiles` list: with more than one process the workers fill the
result queue and the drain loop runs with a progress bar; with one
process the same worker loop runs synchronously and the drain loop runs
without `pbar` ever having been assigned. -/
def calculate_gene_metrics_GeneProfiles {α : Type} (p : Nat)
    (body : String → Except String α) (cmd_groups : List (List String)) :
    Except String (List α) :=
  if 1 < p then gene_result_drain (some ()) (run_batches body cmd_groups)
  else gene_result_drain none (run_batches body cmd_groups)

lemma profile_genes_wrapper_fst_append {α : Type} (body : String → Except String α)
    (l1 l2 : List String) :
    (profile_genes_wrapper body (l1 ++ l2)).1
      = (profile_genes_wrapper body l1).1 ++ (profile_genes_wrapper body l2).1 := by
  induction l1 with
  | nil => simp [profile_genes_wrapper]
  | cons s rest ih =>
    simp only [List.cons_append, profile_genes_wrapper]
    cases h : profile_genes body s <;> simp [h, ih]

lemma profile_genes_sentinel {α : Type} (body : String → Except String α) :
    profile_genes body "FailureScaffoldHeaderTesting" = Except.error "AssertionError" := by
  simp [profile_genes]

lemma aggregate_GeneProfiles_append {α : Type} (r1 r2 : List (List (Option α))) :
    aggregate_GeneProfiles (r1 ++ r2)
      = aggregate_GeneProfiles r1 ++ aggregate_GeneProfiles r2 := by
  induction r1 with
  | nil => simp [aggregate_GeneProfiles]
  | cons GPs rest ih => simp [aggregate_GeneProfiles] at ih ⊢; simp [ih]

/-- C6: an exception while processing one scaffold of a batch (the
fault-injection sentinel `FailureScaffoldHeaderTesting` always raises) is
caught at the batch level, logged with the scaffold identifier, and that
scaffold's result becomes the null marker `none`, while the remaining
scaffolds of the batch are processed exactly as they would have been
without it; the aggregator drops null markers, so the aggregated results
(and in particular their count) are unchanged by the failing scaffold. -/
theorem c6_failure_isolation {α : Type} (body : String → Except String α)
    (pre post : List String) (bpre bpost : List (List String)) :
    (profile_genes_wrapper body (pre ++ "FailureScaffoldHeaderTesting" :: post)).1
      = (profile_genes_wrapper body pre).1 ++ none :: (profile_genes_wrapper body post).1
  ∧ "FAILURE GeneException FailureScaffoldHeaderTesting"
      ∈ (profile_genes_wrapper body (pre ++ "FailureScaffoldHeaderTesting" :: post)).2
  ∧ aggregate_GeneProfiles
      (run_batches body (bpre ++ (pre ++ "FailureScaffoldHeaderTesting" :: post) :: bpost))
      = aggregate_GeneProfiles (run_batches body (bpre ++ (pre ++ post) :: bpost)) := by
  have hfst : ∀ l1 l2 : List String,
      (profile_genes_wrapper body (l1 ++ "FailureScaffoldHeaderTesting" :: l2)).1
        = (profile_genes_wrapper body l1).1 ++ none :: (profile_genes_wrapper body l2).1 := by
    intro l1 l2
    rw [profile_genes_wrapper_fst_append]
    simp only [profile_genes_wrapper, profile_genes_sentinel]
  refine ⟨hfst pre post, ?_, ?_⟩
  · induction pre with
    | nil =>
      simp only [List.nil_append, profile_genes_wrapper, profile_genes_sentinel]
      exact List.mem_cons_self _ _
    | cons s rest ih =>
      simp only [List.cons_append, profile_genes_wrapper]
      cases h : profile_genes body s with
      | error e => simp only [h]; exact List.mem_cons_of_mem _ ih
      | ok v => simp only [h]; exact ih
  · simp only [run_batches, List.map_append, List.map_cons]
    rw [aggregate_GeneProfiles_append, aggregate_GeneProfiles_append]
    have hmid : ∀ (x y : List (Option α)) (xs : List (List (Option α))),
        x.filterMap id = y.filterMap id →
        aggregate_GeneProfiles (x :: xs) = aggregate_GeneProfiles (y :: xs) := by
      intro x y xs hxy
      simp only [aggregate_GeneProfiles, List.foldr, hxy]
    congr 1
    apply hmid
    rw [hfst pre post, profile_genes_wrapper_fst_append]
    simp

lemma gene_result_drain_some {α : Type} (rs : List (List (Option α))) :
    gene_result_drain (some ()) rs = Except.ok (aggregate_GeneProfiles rs) := by
  induction rs with
  | nil => simp [gene_result_drain, aggregate_GeneProfiles]
  | cons GPs rest ih => simp [gene_result_drain, aggregate_GeneProfiles, ih]

/-- C7 (code bug): on the single-process path (`processes ≤ 1`) the drain
loop reads the local `pbar`, which is assigned only on the multi-process
path, so for any non-empty list of batches the single-process mode raises
`UnboundLocalError` instead of producing the same result tables that the
multi-process mode produces on the same input. -/
theorem c7_single_process_pbar_bug {α : Type} (body : String → Except String α)
    (cmd_groups : List (List String)) (hne : cmd_groups ≠ []) :
    calculate_gene_metrics_GeneProfiles 1 body cmd_groups
      = Except.error "UnboundLocalError: local variable pbar referenced before assignment"
  ∧ calculate_gene_metrics_GeneProfiles 2 body cmd_groups
      = Except.ok (aggregate_GeneProfiles (run_batches body cmd_groups)) := by
  constructor
  · cases cmd_groups with
    | nil => exact absurd rfl hne
    | cons g rest => simp [calculate_gene_metrics_GeneProfiles, run_batches, gene_result_drain]
  · simp [calculate_gene_metrics_GeneProfiles, gene_result_drain_some]

/-- Witness for C7 at a concrete failing input: one batch holding one
scaffold, processed with a single process. -/
theorem c7_single_process_pbar_bug_witness :
    calculate_gene_metrics_GeneProfiles 1 (fun _ => Except.ok (0 : Nat)) [["s1"]]
      = Except.error "UnboundLocalError: local variable pbar referenced before assignment" :=
  (c7_single_process_pbar_bug (fun _ => Except.ok (0 : Nat)) [["s1"]] (by simp)).1

/-- C9: the reverse-complement branch of the classifier tests the
direction column against the string `-1` with Python `==`, so for a gene
record whose direction is the integer `-1` — the shape stored by the
genbank parsing path (`feature.location.strand`) — the test is false and
the variant is classified exactly as a plus-strand (`"1"`) gene. -/
theorem c9_genbank_direction_plus_strand (g2s : String → Option (List Nuc))
    (g : GeneRow) (row : SNVRow) :
    pyEq (parse_genbank_direction (-1)) (PyVal.str "-1") = false
  ∧ reference_oriented_sequence g2s
      { g with direction := parse_genbank_direction (-1) } = g2s g.gene
  ∧ characterize_SNP_row g2s [{ g with direction := parse_genbank_direction (-1) }] row
      = characterize_SNP_row g2s [{ g with direction := PyVal.str "1" }] row := by
  have h2 : pyEq (PyVal.str "1") (PyVal.str "-1") = false := by decide
  refine ⟨rfl, ?_, ?_⟩
  · simp [reference_oriented_sequence, parse_genbank_direction, pyEq]
  · by_cases hc : g.start ≤ row.position ∧ row.position ≤ g.stop
    · simp [characterize_SNP_row, gene_filter, hc, old_aa_sequence, new_aa_sequence,
        mutant_sequence, reference_oriented_sequence, parse_genbank_direction, pyEq, h2]
    · simp [characterize_SNP_row, gene_filter, hc]

lemma characterize_SNPs_length (g2s : String → Option (List Nuc))
    (gdb : List GeneRow) :
    ∀ (sdb : List SNVRow) (out : List SNPOutRow),
      characterize_SNPs g2s gdb sdb = some out → out.length = sdb.length := by
  intro sdb
  induction sdb with
  | nil =>
    intro out h
    simp only [characterize_SNPs, Option.some.injEq] at h
    simp [← h]
  | cons row rest ih =>
    intro out h
    simp only [characterize_SNPs] at h
    cases h1 : characterize_SNP_row g2s gdb row <;> rw [h1] at h
    · exact absurd h (by simp)
    · cases h2 : characterize_SNPs g2s gdb rest <;> rw [h2] at h
      · exact absurd h (by simp)
      · simp only [Option.some.injEq] at h
        simp [← h, ih _ h2]

/-- C10: `characterize_SNPs` appends exactly one output row per input
variant row, so whenever it returns (rather than propagating an
exception) its output has the length of its input, and the assert
`len(Sdb) == len(sdb)` in `Characterize_SNPs_wrapper` can never fail. -/
theorem c10_one_row_per_variant :
    (∀ (g2s : String → Option (List Nuc)) (gdb : List GeneRow)
        (sdb : List SNVRow) (out : List SNPOutRow),
        characterize_SNPs g2s gdb sdb = some out → out.length = sdb.length)
  ∧ ∀ (g2s : String → Option (List Nuc)) (gdb : List GeneRow) (Ldb : List SNVRow),
      Characterize_SNPs_wrapper g2s gdb Ldb ≠ Except.error "AssertionError" := by
  refine ⟨fun g2s gdb => characterize_SNPs_length g2s gdb, ?_⟩
  intro g2s gdb Ldb h
  simp only [Characterize_SNPs_wrapper] at h
  by_cases he : (Characterize_SNPs_wrapper_filtered Ldb).isEmpty
  · rw [if_pos he] at h
    exact absurd h (by simp)
  · rw [if_neg he] at h
    split at h
    next => simp at h
    next sdb2 heq =>
      rw [if_pos (characterize_SNPs_length g2s gdb _ _ heq).symm] at h
      exact absurd h (by simp)

/-- Witness for C10: a concrete successful classification with one
intergenic variant, where the output has one row per input row. -/
theorem c10_one_row_per_variant_witness :
    ([⟨0, "I", "", ""⟩] : List SNPOutRow).length
      = ([⟨0, "s1", 0, 0, Nuc.A, Nuc.A, Nuc.T, false, 1⟩] : List SNVRow).length :=
  c10_one_row_per_variant.1 (fun _ => none) []
    [⟨0, "s1", 0, 0, Nuc.A, Nuc.A, Nuc.T, false, 1⟩] [⟨0, "I", "", ""⟩] rfl

lemma first_diff_self (l : List Char) : first_diff l l = none := by
  induction l with
  | nil => rfl
  | cons a l ih => simp [first_diff, ih]

lemma first_diff_spec :
    ∀ (o n : List Char) (i : Nat) (a b : Char),
      first_diff o n = some (i, a, b) →
      o[i]? = some a ∧ n[i]? = some b ∧ a ≠ b ∧ ∀ j, j < i → o[j]? = n[j]? := by
  intro o
  induction o with
  | nil =>
    intro n i a b h
    cases n <;> simp [first_diff] at h
  | cons x os ih =>
    intro n i a b h
    cases n with
    | nil => simp [first_diff] at h
    | cons y ns =>
      by_cases hxy : y = x
      · subst hxy
        simp only [first_diff, ne_eq, not_true_eq_false, if_false] at h
        cases hfd : first_diff os ns with
        | none => rw [hfd] at h; simp at h
        | some t =>
          obtain ⟨i0, a0, b0⟩ := t
          rw [hfd] at h
          simp only [Option.map_some', Option.some.injEq, Prod.mk.injEq] at h
          obtain ⟨rfl, rfl, rfl⟩ := h
          obtain ⟨h1, h2, h3, h4⟩ := ih ns i0 a0 b0 hfd
          refine ⟨by simpa using h1, by simpa using h2, h3, ?_⟩
          intro j hj
          cases j with
          | zero => simp
          | succ j' =>
            simp only [List.getElem?_cons_succ]
            exact h4 j' (by omega)
      · rw [first_diff, if_pos (by exact hxy)] at h
        simp only [Option.some.injEq, Prod.mk.injEq] at h
        obtain ⟨hi, ha, hb⟩ := h
        subst hi; subst ha; subst hb
        exact ⟨by simp, by simp, fun hab => hxy hab.symm, fun j hj => by omega⟩

/-- C4: classification outcomes of the mutation classifier.  Zero genes
containing the variant position give class `I` with empty gene field;
two or more give class `M` with the comma-joined gene identifiers;
exactly one gene gives class `S` when the two translations agree, and
otherwise class `N` whose effect string is built only from the first
differing residue pair (old residue, 0-based nucleotide offset, new
residue), every earlier residue being equal. -/
theorem c4_characterize_classification (g2s : String → Option (List Nuc))
    (gdb : List GeneRow) (row : SNVRow) (out : SNPOutRow)
    (hout : characterize_SNP_row g2s gdb row = some out) :
    (gene_filter gdb row.position = [] → out = ⟨row.position, "I", "", ""⟩)
  ∧ (2 ≤ (gene_filter gdb row.position).length →
      out = ⟨row.position, "M", "",
        String.intercalate "," ((gene_filter gdb row.position).map GeneRow.gene)⟩)
  ∧ ∀ g, gene_filter gdb row.position = [g] →
      ∃ old_aa new_aa, old_aa_sequence g2s g = some old_aa
        ∧ new_aa_sequence g2s g row = some new_aa
        ∧ (old_aa = new_aa →
            out = ⟨row.position, "S", "S:" ++ toString (row.position - g.start), g.gene⟩)
        ∧ ∀ i a b, first_diff old_aa new_aa = some (i, a, b) →
            out = ⟨row.position, "N",
              "N:" ++ String.mk [a] ++ toString (row.position - g.start) ++ String.mk [b],
              g.gene⟩
            ∧ old_aa[i]? = some a ∧ new_aa[i]? = some b ∧ a ≠ b
            ∧ ∀ j, j < i → old_aa[j]? = new_aa[j]? := by
  simp only [characterize_SNP_row] at hout
  split at hout
  · -- zero containing genes
    rename_i heq
    simp only [Option.some.injEq] at hout
    refine ⟨fun _ => hout.symm, fun h2 => ?_, fun g hg => ?_⟩
    · rw [heq] at h2; simp at h2
    · rw [heq] at hg; exact absurd hg (by simp)
  · -- exactly one containing gene
    rename_i g0 heq
    refine ⟨fun h => absurd (heq.symm.trans h) (by simp),
      fun h2 => by rw [heq] at h2; simp at h2, fun g hg => ?_⟩
    have hgg : g0 = g := by simpa using heq.symm.trans hg
    subst hgg
    split at hout
    · rename_i old_aa new_aa heq1 heq2
      split at hout
      · rename_i heq3
        simp only [Option.some.injEq] at hout
        refine ⟨old_aa, new_aa, heq1, heq2, fun _ => hout.symm, ?_⟩
        intro i a b hfd
        rw [heq3] at hfd
        exact absurd hfd (by simp)
      · rename_i i0 a0 b0 heq3
        simp only [Option.some.injEq] at hout
        refine ⟨old_aa, new_aa, heq1, heq2, fun hsame => ?_, ?_⟩
        · subst hsame
          rw [first_diff_self] at heq3
          exact absurd heq3 (by simp)
        · intro i a b hfd
          rw [heq3] at hfd
          simp only [Option.some.injEq, Prod.mk.injEq] at hfd
          obtain ⟨rfl, rfl, rfl⟩ := hfd
          obtain ⟨h1, h2, h3, h4⟩ := first_diff_spec old_aa new_aa i0 a0 b0 heq3
          exact ⟨hout.symm, h1, h2, h3, h4⟩
    · -- an exception while fetching or building a sequence
      exact absurd hout (by simp)
  · -- two or more containing genes
    rename_i hne1 hne2
    simp only [Option.some.injEq] at hout
    exact ⟨fun h => absurd h hne1, fun _ => hout.symm, fun g hg => absurd hg (hne2 g)⟩

/-- The spec's worked example: scaffold `s1`, gene `[0, 8]` on the plus
strand with sequence `ATGAAACCC`. -/
def exG2s : String → Option (List Nuc) := fun _ =>
  some [Nuc.A, Nuc.T, Nuc.G, Nuc.A, Nuc.A, Nuc.A, Nuc.C, Nuc.C, Nuc.C]

/-- The spec's worked example, gene record. -/
def exGene : GeneRow := ⟨"g1", "s1", PyVal.str "1", 0, 8⟩

/-- The spec's worked example, variant record: position 3, reference `A`,
consensus `A`, variant `T`. -/
def exRow : SNVRow := ⟨0, "s1", 3, 0, Nuc.A, Nuc.A, Nuc.T, false, 1⟩

/-- Witness for C4 at the worked example (`ATGAAACCC`, variant `T` at
position 3, translations `MKP` vs `M*P`): the effect string is built from
the first differing residue pair. -/
theorem c4_characterize_classification_witness :
    (⟨3, "N", "N:K3*", "g1"⟩ : SNPOutRow)
      = ⟨exRow.position, "N",
         "N:" ++ String.mk ['K'] ++ toString (exRow.position - exGene.start)
           ++ String.mk ['*'],
         exGene.gene⟩ := by
  obtain ⟨oa, na, hoa, hna, -, hN⟩ :=
    (c4_characterize_classification exG2s [exGene] exRow ⟨3, "N", "N:K3*", "g1"⟩
      (by decide)).2.2 exGene (by decide)
  have hoa2 : oa = ['M', 'K', 'P'] := by
    have h0 : old_aa_sequence exG2s exGene = some ['M', 'K', 'P'] := by decide
    simpa using (h0.symm.trans hoa).symm
  have hna2 : na = ['M', '*', 'P'] := by
    have h0 : new_aa_sequence exG2s exGene exRow = some ['M', '*', 'P'] := by decide
    simpa using (h0.symm.trans hna).symm
  subst hoa2; subst hna2
  exact (hN 1 'K' '*' (by decide)).1

/-- C1 (amended): for a variant in exactly one gene, the substitution
step makes the mutant sequence differ from the (reference-oriented)
original at offset `position - start`, provided the variant base and the
consensus base are not both equal to the original base at that offset;
when they are both equal to it, the mutant equals the original there
(see the counterexample). -/
theorem c1_mutant_differs_amended (g2s : String → Option (List Nuc))
    (gdb : List GeneRow) (row : SNVRow) (g : GeneRow)
    (original m : List Nuc)
    (_hone : gene_filter gdb row.position = [g])
    (horig : reference_oriented_sequence g2s g = some original)
    (hmut : mutant_sequence g2s g row = some m)
    (hnb : ¬(original[row.position - g.start]? = some row.varBase
           ∧ original[row.position - g.start]? = some row.conBase)) :
    m[row.position - g.start]? ≠ original[row.position - g.start]? := by
  simp only [mutant_sequence, horig] at hmut
  cases hob : original[row.position - g.start]? with
  | none =>
    have hset0 : (original.set (row.position - g.start)
        row.varBase)[row.position - g.start]? = none := by
      apply List.getElem?_eq_none
      rw [List.length_set]
      exact List.getElem?_eq_none_iff.mp hob
    rw [hset0, hob] at hmut
    exact absurd hmut (by simp)
  | some ob =>
    have hklt : row.position - g.start < original.length := by
      by_contra hge
      rw [List.getElem?_eq_none (by omega)] at hob
      exact absurd hob (by simp)
    have hset : (original.set (row.position - g.start) row.varBase)[row.position - g.start]?
        = some row.varBase :=
      List.getElem?_set_self hklt
    rw [hset, hob] at hmut
    simp only [Option.some.injEq] at hmut
    by_cases hvb : row.varBase = ob
    · rw [if_pos hvb] at hmut
      have hm : m[row.position - g.start]? = some row.conBase := by
        rw [← hmut]
        exact List.getElem?_set_self (by rw [List.length_set]; exact hklt)
      rw [hm]
      intro hcon
      have hcb : row.conBase = ob := by simpa using hcon
      exact hnb ⟨by rw [hob, hvb], by rw [hob, hcb]⟩
    · rw [if_neg hvb] at hmut
      have hm : m[row.position - g.start]? = some row.varBase := by
        rw [← hmut]
        exact List.getElem?_set_self hklt
      rw [hm]
      intro hcon
      exact hvb (by simpa using hcon)

/-- Witness for C1 at the worked example: variant `T` over original `A`
at offset 3 of `ATGAAACCC` leaves a mutant that differs there. -/
theorem c1_mutant_differs_amended_witness :
    ([Nuc.A, Nuc.T, Nuc.G, Nuc.T, Nuc.A, Nuc.A, Nuc.C, Nuc.C, Nuc.C] : List Nuc)[3]?
      ≠ ([Nuc.A, Nuc.T, Nuc.G, Nuc.A, Nuc.A, Nuc.A, Nuc.C, Nuc.C, Nuc.C] : List Nuc)[3]? := by
  have h := c1_mutant_differs_amended exG2s [exGene] exRow exGene
    [Nuc.A, Nuc.T, Nuc.G, Nuc.A, Nuc.A, Nuc.A, Nuc.C, Nuc.C, Nuc.C]
    [Nuc.A, Nuc.T, Nuc.G, Nuc.T, Nuc.A, Nuc.A, Nuc.C, Nuc.C, Nuc.C]
    (by decide) (by decide) (by decide) (by decide)
  exact h

/-- The counterexample gene for C1: plus strand, interval `[0, 2]`,
sequence `ATG`. -/
def cexGene : GeneRow := ⟨"g1", "s1", PyVal.str "1", 0, 2⟩

/-- The counterexample variant for C1: position 0 with variant base and
consensus base both equal to the original base `A`. -/
def cexRow : SNVRow := ⟨0, "s1", 0, 0, Nuc.A, Nuc.A, Nuc.A, false, 1⟩

/-- The counterexample sequence store for C1. -/
def cexG2s : String → Option (List Nuc) := fun _ => some [Nuc.A, Nuc.T, Nuc.G]

/-- Counterexample to C1 as stated: a variant in exactly one gene whose
variant base and consensus base both equal the original base at the
offset; the mutant sequence equals the original sequence, so it does not
differ at that offset. -/
theorem c1_counterexample :
    gene_filter [cexGene] cexRow.position = [cexGene]
  ∧ reference_oriented_sequence cexG2s cexGene = some [Nuc.A, Nuc.T, Nuc.G]
  ∧ mutant_sequence cexG2s cexGene cexRow = some [Nuc.A, Nuc.T, Nuc.G]
  ∧ ([Nuc.A, Nuc.T, Nuc.G] : List Nuc)[cexRow.position - cexGene.start]?
      = some Nuc.A := by
  refine ⟨by decide, by decide, by decide, by decide⟩

/-- The dedup key of `drop_duplicates(subset=['scaffold', 'position'])`. -/
def snv_key (r : SNVRow) : String × Nat := (r.scaffold, r.position)

lemma dd_any_iff (r : SNVRow) (l : List SNVRow) :
    (l.any fun x => x.scaffold == r.scaffold && x.position == r.position) = true
      ↔ ∃ x ∈ l, snv_key x = snv_key r := by
  simp [List.any_eq_true, snv_key, Prod.ext_iff]

lemma drop_duplicates_keep_last_sublist (l : List SNVRow) :
    List.Sublist (drop_duplicates_keep_last l) l := by
  induction l with
  | nil => simp [drop_duplicates_keep_last]
  | cons r rest ih =>
    simp only [drop_duplicates_keep_last]
    split
    · exact ih.cons r
    · exact ih.cons₂ r

lemma mem_drop_duplicates_keep_last {r : SNVRow} {l : List SNVRow}
    (h : r ∈ drop_duplicates_keep_last l) : r ∈ l :=
  (drop_duplicates_keep_last_sublist l).subset h

lemma drop_duplicates_keep_last_key_nodup (l : List SNVRow) :
    ((drop_duplicates_keep_last l).map snv_key).Nodup := by
  induction l with
  | nil => simp [drop_duplicates_keep_last]
  | cons r rest ih =>
    simp only [drop_duplicates_keep_last]
    split
    · exact ih
    · rename_i hno
      simp only [List.map_cons, List.nodup_cons]
      refine ⟨?_, ih⟩
      intro hmem
      obtain ⟨x, hx, hkx⟩ := List.mem_map.mp hmem
      exact hno ((dd_any_iff r rest).mpr ⟨x, mem_drop_duplicates_keep_last hx, hkx⟩)

lemma drop_duplicates_keep_last_covers (l : List SNVRow) :
    ∀ r' ∈ l, ∃ r ∈ drop_duplicates_keep_last l, snv_key r = snv_key r' := by
  induction l with
  | nil => intro r' h; simp at h
  | cons x rest ih =>
    intro r' h
    simp only [drop_duplicates_keep_last]
    split
    · rename_i hany
      rcases List.mem_cons.mp h with rfl | hr
      · obtain ⟨y, hy, hky⟩ := (dd_any_iff r' rest).mp hany
        obtain ⟨r, hr2, hkr⟩ := ih y hy
        exact ⟨r, hr2, hkr.trans hky⟩
      · exact ih r' hr
    · rcases List.mem_cons.mp h with rfl | hr
      · exact ⟨r', List.mem_cons_self _ _, rfl⟩
      · obtain ⟨r, hr2, hkr⟩ := ih r' hr
        exact ⟨r, List.mem_cons_of_mem _ hr2, hkr⟩

lemma drop_duplicates_keep_last_max (l : List SNVRow)
    (hsort : l.Pairwise (fun a b => a.mm ≤ b.mm)) :
    ∀ r ∈ drop_duplicates_keep_last l, ∀ r' ∈ l,
      snv_key r' = snv_key r → r'.mm ≤ r.mm := by
  induction hsort with
  | nil => intro r h; simp [drop_duplicates_keep_last] at h
  | @cons x rest hx hrest ih =>
    intro r hr r' hr' hk
    simp only [drop_duplicates_keep_last] at hr
    split at hr
    · rcases List.mem_cons.mp hr' with rfl | hr'2
      · exact hx r (mem_drop_duplicates_keep_last hr)
      · exact ih r hr r' hr'2 hk
    · rename_i hany
      rcases List.mem_cons.mp hr with rfl | hr2
      · rcases List.mem_cons.mp hr' with rfl | hr'2
        · exact le_refl _
        · exact absurd ((dd_any_iff r rest).mpr ⟨r', hr'2, hk⟩) hany
      · rcases List.mem_cons.mp hr' with rfl | hr'2
        · exact hx r (mem_drop_duplicates_keep_last hr2)
        · exact ih r hr2 r' hr'2 hk

/-- C8: starting from the mm-sorted per-scaffold variant table, the
wrapper deduplicates to one row per (scaffold, position) key keeping a
highest-threshold row, every key of the input surviving dedup; the
subsequent filters keep exactly the non-cryptic rows whose allele count
is in (0, 2]; and if nothing survives, the wrapper returns the empty
result. -/
theorem c8_wrapper_filtering (Ldb : List SNVRow)
    (hsort : Ldb.Pairwise (fun a b => a.mm ≤ b.mm)) :
    ((Characterize_SNPs_wrapper_dedup Ldb).map snv_key).Nodup
  ∧ (∀ r ∈ Characterize_SNPs_wrapper_dedup Ldb, r ∈ Ldb)
  ∧ (∀ r ∈ Characterize_SNPs_wrapper_dedup Ldb, ∀ r' ∈ Ldb,
      snv_key r' = snv_key r → r'.mm ≤ r.mm)
  ∧ (∀ r' ∈ Ldb, ∃ r ∈ Characterize_SNPs_wrapper_dedup Ldb, snv_key r = snv_key r')
  ∧ (∀ r, r ∈ Characterize_SNPs_wrapper_filtered Ldb ↔
      r ∈ Characterize_SNPs_wrapper_dedup Ldb ∧ r.cryptic = false
        ∧ 0 < r.allele_count ∧ r.allele_count ≤ 2)
  ∧ ∀ (g2s : String → Option (List Nuc)) (gdb : List GeneRow),
      Characterize_SNPs_wrapper_filtered Ldb = [] →
      Characterize_SNPs_wrapper g2s gdb Ldb = Except.ok ([], []) := by
  have hperm : (Characterize_SNPs_wrapper_dedup Ldb).Perm (drop_duplicates_keep_last Ldb) :=
    List.perm_insertionSort _ _
  refine ⟨?_, ?_, ?_, ?_, ?_, ?_⟩
  · exact (hperm.map snv_key).nodup_iff.mpr (drop_duplicates_keep_last_key_nodup Ldb)
  · intro r hr
    exact mem_drop_duplicates_keep_last (hperm.mem_iff.mp hr)
  · intro r hr r' hr' hk
    exact drop_duplicates_keep_last_max Ldb hsort r (hperm.mem_iff.mp hr) r' hr' hk
  · intro r' hr'
    obtain ⟨r, hr, hk⟩ := drop_duplicates_keep_last_covers Ldb r' hr'
    exact ⟨r, hperm.mem_iff.mpr hr, hk⟩
  · intro r
    simp [Characterize_SNPs_wrapper_filtered, List.mem_filter, and_assoc]
    intro _
    tauto
  · intro g2s gdb hfil
    simp [Characterize_SNPs_wrapper, hfil]

/-- A concrete mm-sorted variant table for the C8 witness: a duplicated
position (threshold 0 then 1), a cryptic row and an allele-count-3 row. -/
def c8Ldb : List SNVRow :=
  [⟨0, "s1", 3, 0, Nuc.A, Nuc.A, Nuc.T, false, 1⟩,
   ⟨1, "s1", 3, 1, Nuc.A, Nuc.A, Nuc.G, false, 2⟩,
   ⟨2, "s1", 9, 1, Nuc.C, Nuc.C, Nuc.G, true, 1⟩,
   ⟨3, "s1", 11, 2, Nuc.C, Nuc.C, Nuc.G, false, 3⟩]

/-- Witness for C8: on the concrete table the deduplicated keys are
pairwise distinct. -/
theorem c8_wrapper_filtering_witness :
    ((Characterize_SNPs_wrapper_dedup c8Ldb).map snv_key).Nodup :=
  (c8_wrapper_filtering c8Ldb (by decide)).1

lemma lookup_map_key {α : Type} (keys : List Nat) (f : Nat → α) (p : Nat) :
    (keys.map (fun k => (k, f k))).lookup p = if p ∈ keys then some (f p) else none := by
  induction keys with
  | nil => simp
  | cons k ks ih =>
    by_cases h : p = k
    · subst h
      simp [List.lookup]
    · have hbeq : (p == k) = false := by simpa using h
      simp only [List.map_cons, List.lookup, hbeq]
      simp [ih, List.mem_cons, h]

lemma lookup_eq_none_of_not_mem_keys {α : Type} (l : List (Nat × α)) (p : Nat)
    (h : p ∉ l.map Prod.fst) : l.lookup p = none := by
  induction l with
  | nil => rfl
  | cons kv rest ih =>
    obtain ⟨k, v⟩ := kv
    simp only [List.map_cons, List.mem_cons] at h
    push_neg at h
    have hbeq : (p == k) = false := by simpa using h.1
    simp only [List.lookup, hbeq]
    exact ih h.2

lemma lookup_isSome_of_mem_keys {α : Type} (l : List (Nat × α)) (p : Nat)
    (h : p ∈ l.map Prod.fst) : (l.lookup p).isSome := by
  induction l with
  | nil => simp at h
  | cons kv rest ih =>
    obtain ⟨k, v⟩ := kv
    simp only [List.map_cons, List.mem_cons] at h
    by_cases hp : p = k
    · subst hp; simp [List.lookup]
    · have hbeq : (p == k) = false := by simpa using hp
      simp only [List.lookup, hbeq]
      exact ih (h.resolve_left hp)

lemma series_val_series_add (a b : Series Nat) (p : Nat) :
    series_val (series_add a b) p = series_val a p + series_val b p := by
  unfold series_add
  show series_val _ p = _
  unfold series_val
  rw [lookup_map_key]
  by_cases h : p ∈ ((a.map Prod.fst ++ b.map Prod.fst).dedup).insertionSort (· ≤ ·)
  · rw [if_pos h]
    rfl
  · rw [if_neg h]
    have h2 : p ∉ a.map Prod.fst ∧ p ∉ b.map Prod.fst := by
      rw [(List.perm_insertionSort (· ≤ ·) _).mem_iff, List.mem_dedup, List.mem_append] at h
      push_neg at h
      exact h
    rw [lookup_eq_none_of_not_mem_keys a p h2.1, lookup_eq_none_of_not_mem_keys b p h2.2]
    rfl

lemma iterate_covT_go_map_fst (covT : List (Nat × Series Nat)) :
    ∀ (mms : List Nat) (counts : Series Nat),
      (iterate_covT_go covT mms counts).map Prod.fst = mms := by
  intro mms
  induction mms with
  | nil => intro counts; rfl
  | cons mm rest ih => intro counts; simp [iterate_covT_go, ih]

lemma sum_filter_mono {β : Type} (l : List β) (f : β → Nat) (P Q : β → Bool)
    (h : ∀ x ∈ l, P x = true → Q x = true) :
    ((l.filter P).map f).sum ≤ ((l.filter Q).map f).sum := by
  induction l with
  | nil => simp
  | cons x rest ih =>
    have ih' := ih (fun y hy => h y (List.mem_cons_of_mem _ hy))
    rw [List.filter_cons, List.filter_cons]
    by_cases hP : P x = true
    · rw [if_pos hP, if_pos (h x (List.mem_cons_self _ _) hP)]
      simp only [List.map_cons, List.sum_cons]
      omega
    · rw [if_neg hP]
      by_cases hQ : Q x = true
      · rw [if_pos hQ]
        simp only [List.map_cons, List.sum_cons]
        omega
      · rw [if_neg hQ]
        exact ih'

lemma sum_filter_split (l : List (Nat × Series Nat)) (p : Nat) (P : Nat → Bool)
    (mm : Nat) (hP : P mm = false) (hkeys : (l.map Prod.fst).Nodup) :
    ((l.filter (fun ms => P ms.1 || ms.1 == mm)).map (fun ms => series_val ms.2 p)).sum
      = ((l.filter (fun ms => P ms.1)).map (fun ms => series_val ms.2 p)).sum
        + series_val ((l.lookup mm).getD []) p := by
  induction l with
  | nil => simp [series_val]
  | cons ks rest ih =>
    obtain ⟨k, s⟩ := ks
    simp only [List.map_cons, List.nodup_cons] at hkeys
    obtain ⟨hknot, hrest⟩ := hkeys
    by_cases hkm : k = mm
    · subst hkm
      rw [List.filter_cons, List.filter_cons]
      rw [if_pos (by simp), if_neg (by simp [hP])]
      have hlk : List.lookup k ((k, s) :: rest) = some s := by simp [List.lookup]
      rw [hlk]
      have hcong : rest.filter (fun ms => P ms.1 || ms.1 == k)
          = rest.filter (fun ms => P ms.1) := by
        apply List.filter_congr
        intro x hx
        have hxk : (x.1 == k) = false := by
          have : x.1 ≠ k := by
            intro hc
            exact hknot (hc ▸ List.mem_map.mpr ⟨x, hx, rfl⟩)
          simpa using this
        simp [hxk]
      rw [hcong]
      simp only [List.map_cons, List.sum_cons, Option.getD_some]
      omega
    · rw [List.filter_cons, List.filter_cons]
      have h1 : (P k || (k == mm)) = P k := by
        have : (k == mm) = false := by simpa using hkm
        simp [this]
      rw [h1]
      have hlk : List.lookup mm ((k, s) :: rest) = List.lookup mm rest := by
        have hbeq : (mm == k) = false := by simpa using Ne.symm hkm
        simp only [List.lookup, hbeq]
      rw [hlk]
      by_cases hPk : P k = true
      · rw [if_pos hPk, if_pos hPk]
        simp only [List.map_cons, List.sum_cons]
        rw [ih hrest]
        omega
      · have hPk' : P k = false := by revert hPk; cases P k <;> simp
        rw [if_neg (by simp [hPk']), if_neg (by simp [hPk'])]
        exact ih hrest

lemma iterate_covT_go_spec (covT : List (Nat × Series Nat))
    (hkeys : (covT.map Prod.fst).Nodup) :
    ∀ (mms : List Nat) (counts : Series Nat),
      mms.Pairwise (· < ·) →
      (∀ m ∈ mms, m ∈ covT.map Prod.fst) →
      (∀ k ∈ covT.map Prod.fst, k ∉ mms → ∀ m ∈ mms, k < m) →
      (∀ q, series_val counts q =
        ((covT.filter (fun ms => decide (ms.1 ∉ mms))).map
          (fun ms => series_val ms.2 q)).sum) →
      ∀ t c, (t, c) ∈ iterate_covT_go covT mms counts →
        ∀ p, series_val c p = cumulative_coverage covT t p := by
  intro mms
  induction mms with
  | nil =>
    intro counts _ _ _ _ t c hmem
    simp [iterate_covT_go] at hmem
  | cons mm rest ih =>
    intro counts hpair hsub hlt hinv t c hmem p
    have hpair' := List.pairwise_cons.mp hpair
    have hmm_not_rest : mm ∉ rest := fun hc => lt_irrefl mm (hpair'.1 mm hc)
    have hinv' : ∀ q, series_val (series_add counts ((covT.lookup mm).getD [])) q =
        ((covT.filter (fun ms => decide (ms.1 ∉ rest))).map
          (fun ms => series_val ms.2 q)).sum := by
      intro q
      rw [series_val_series_add, hinv q]
      have hcong : covT.filter (fun ms => decide (ms.1 ∉ rest))
          = covT.filter (fun ms => decide (ms.1 ∉ mm :: rest) || ms.1 == mm) := by
        apply List.filter_congr
        intro x _
        by_cases hxm : x.1 = mm
        · simp [hxm, hmm_not_rest]
        · simp [hxm, List.mem_cons]
      rw [hcong, sum_filter_split covT q (fun k => decide (k ∉ mm :: rest)) mm
        (by simp) hkeys]
    simp only [iterate_covT_go] at hmem
    rcases List.mem_cons.mp hmem with heq | hrest_mem
    · simp only [Prod.mk.injEq] at heq
      obtain ⟨rfl, rfl⟩ := heq
      rw [hinv' p]
      unfold cumulative_coverage
      have hfeq : covT.filter (fun ms => decide (ms.1 ∉ rest))
          = covT.filter (fun ms => decide (ms.1 ≤ t)) := by
        apply List.filter_congr
        intro x hx
        have hxk : x.1 ∈ covT.map Prod.fst := List.mem_map.mpr ⟨x, hx, rfl⟩
        by_cases hxr : x.1 ∈ rest
        · have hgt : t < x.1 := hpair'.1 x.1 hxr
          simp [hxr, show ¬x.1 ≤ t by omega]
        · by_cases hxm : x.1 = t
          · simp [hxr, hxm, hmm_not_rest]
          · have hnotmms : x.1 ∉ t :: rest := by simp [hxm, hxr]
            have hlt2 : x.1 < t := hlt x.1 hxk hnotmms t (List.mem_cons_self _ _)
            simp [hxr, show x.1 ≤ t from le_of_lt hlt2]
      rw [hfeq]
    · refine ih (series_add counts ((covT.lookup mm).getD [])) hpair'.2
        (fun m hm => hsub m (List.mem_cons_of_mem _ hm)) ?_ hinv' t c hrest_mem p
      intro k hk hkr m hm
      by_cases hkm : k = mm
      · subst hkm
        exact hpair'.1 m hm
      · exact hlt k hk (by simp [hkm, hkr]) m (List.mem_cons_of_mem _ hm)

/-- C3: the coverage-mode threshold iterator visits the threshold keys in
ascending order (its output keys are the sorted input keys), yields at
each threshold `t` the per-position cumulative sum of counts over all
thresholds `≤ t` (missing positions counting as zero), and its cumulative
values are therefore monotone in the threshold at every position. -/
theorem c3_iterate_covT_cumulative (covT : List (Nat × Series Nat))
    (hkeys : (covT.map Prod.fst).Nodup) :
    ((iterate_covT_mms covT).map Prod.fst).Pairwise (· ≤ ·)
  ∧ ((iterate_covT_mms covT).map Prod.fst).Perm (covT.map Prod.fst)
  ∧ (∀ t c, (t, c) ∈ iterate_covT_mms covT → ∀ p,
      series_val c p = cumulative_coverage covT t p)
  ∧ ∀ t c t' c', (t, c) ∈ iterate_covT_mms covT → (t', c') ∈ iterate_covT_mms covT →
      t' ≤ t → ∀ p, series_val c' p ≤ series_val c p := by
  have hmapfst : (iterate_covT_mms covT).map Prod.fst
      = (covT.map Prod.fst).insertionSort (· ≤ ·) :=
    iterate_covT_go_map_fst covT _ []
  have hsorted : ((covT.map Prod.fst).insertionSort (· ≤ ·)).Pairwise (· ≤ ·) :=
    List.sorted_insertionSort (· ≤ ·) _
  have hperm := List.perm_insertionSort (· ≤ ·) (covT.map Prod.fst)
  have hnodup : ((covT.map Prod.fst).insertionSort (· ≤ ·)).Nodup :=
    hperm.nodup_iff.mpr hkeys
  have hpairlt : ((covT.map Prod.fst).insertionSort (· ≤ ·)).Pairwise (· < ·) :=
    (hsorted.and hnodup).imp (fun h => lt_of_le_of_ne h.1 h.2)
  have hspec := iterate_covT_go_spec covT hkeys
    ((covT.map Prod.fst).insertionSort (· ≤ ·)) []
    hpairlt (fun m hm => hperm.mem_iff.mp hm)
    (fun k hk hknot _ _ => absurd (hperm.mem_iff.mpr hk) hknot)
    (fun q => by
      have hfe : covT.filter
          (fun ms => decide (ms.1 ∉ (covT.map Prod.fst).insertionSort (· ≤ ·))) = [] := by
        rw [List.filter_eq_nil_iff]
        intro x hx
        simp only [decide_eq_true_eq, not_not]
        exact hperm.mem_iff.mpr (List.mem_map.mpr ⟨x, hx, rfl⟩)
      rw [hfe]
      rfl)
  refine ⟨hmapfst ▸ hsorted, hmapfst ▸ hperm, fun t c hm p => hspec t c hm p, ?_⟩
  intro t c t' c' hm hm' hle p
  rw [hspec t c hm p, hspec t' c' hm' p]
  unfold cumulative_coverage
  apply sum_filter_mono
  intro x _ hx
  simp only [decide_eq_true_eq] at hx ⊢
  omega

/-- Witness for C3 at a concrete profile: the value yielded for position
5 at threshold 2 is the cumulative sum 9 + 3 over thresholds 0 and 2. -/
theorem c3_iterate_covT_cumulative_witness :
    series_val [(5, 12), (7, 1)] 5
      = cumulative_coverage [(0, [(5, 9)]), (2, [(5, 3), (7, 1)])] 2 5 :=
  (c3_iterate_covT_cumulative [(0, [(5, 9)]), (2, [(5, 3), (7, 1)])]
    (by decide)).2.2.1 2 [(5, 12), (7, 1)] (by decide) 5

/-- Python `dict.get`-style first-wins choice used to describe a fold of
overwriting updates: the left operand if present, otherwise the right. -/
def opt_orelse {α : Type} (a b : Option α) : Option α :=
  match a with
  | some v => some v
  | none => b

lemma lookup_filter_ne {α : Type} (d : List (Nat × α)) (k p : Nat) (h : p ≠ k) :
    (d.filter (fun kv => kv.1 ≠ k)).lookup p = d.lookup p := by
  induction d with
  | nil => rfl
  | cons kv rest ih =>
    obtain ⟨a, v⟩ := kv
    by_cases hak : a = k
    · subst hak
      rw [List.filter_cons, if_neg (by simp)]
      have hbeq : (p == a) = false := by simpa using h
      simp only [List.lookup, hbeq]
      exact ih
    · rw [List.filter_cons, if_pos (by simpa using hak)]
      by_cases hpa : p = a
      · subst hpa
        simp [List.lookup]
      · have hbeq : (p == a) = false := by simpa using hpa
        simp only [List.lookup, hbeq]
        exact ih

lemma dict_update_lookup_self {α : Type} (d : Series α) (k : Nat) (v : α) :
    (dict_update d k v).lookup k = some v := by
  simp [dict_update, List.lookup]

lemma dict_update_lookup_ne {α : Type} (d : Series α) (k p : Nat) (v : α)
    (h : p ≠ k) : (dict_update d k v).lookup p = d.lookup p := by
  have hbeq : (p == k) = false := by simpa using h
  simp only [dict_update, List.lookup, hbeq]
  exact lookup_filter_ne d k p h

lemma fold_update_lookup {α : Type} (items : List (Nat × α))
    (hn : (items.map Prod.fst).Nodup) :
    ∀ (d : Series α) (p : Nat),
      ((items.foldl (fun d kv => dict_update d kv.1 kv.2) d).lookup p)
        = opt_orelse (items.lookup p) (d.lookup p) := by
  induction items with
  | nil => intro d p; rfl
  | cons kv rest ih =>
    obtain ⟨k, v⟩ := kv
    simp only [List.map_cons, List.nodup_cons] at hn
    intro d p
    simp only [List.foldl_cons]
    rw [ih hn.2 (dict_update d k v) p]
    by_cases hpk : p = k
    · subst hpk
      rw [lookup_eq_none_of_not_mem_keys rest p hn.1, dict_update_lookup_self]
      simp [opt_orelse, List.lookup]
    · rw [dict_update_lookup_ne d k p v hpk]
      have hbeq : (p == k) = false := by simpa using hpk
      simp only [List.lookup, hbeq]

lemma sorted_series_lookup {α : Type} [Inhabited α] (d : Series α) (p : Nat) :
    (sorted_series d).lookup p = d.lookup p := by
  unfold sorted_series
  rw [lookup_map_key]
  by_cases h : p ∈ (d.map Prod.fst).insertionSort (· ≤ ·)
  · rw [if_pos h]
    have hmem : p ∈ d.map Prod.fst := (List.perm_insertionSort _ _).mem_iff.mp h
    have hsome := lookup_isSome_of_mem_keys d p hmem
    cases hl : d.lookup p with
    | none => rw [hl] at hsome; simp at hsome
    | some w => simp [hl]
  · rw [if_neg h]
    exact (lookup_eq_none_of_not_mem_keys d p
      (fun hc => h ((List.perm_insertionSort _ _).mem_iff.mpr hc))).symm

lemma mem_of_lookup_eq_some {α : Type} {l : List (Nat × α)} {k : Nat} {v : α}
    (h : l.lookup k = some v) : (k, v) ∈ l := by
  induction l with
  | nil => simp [List.lookup] at h
  | cons kv rest ih =>
    obtain ⟨a, b⟩ := kv
    by_cases hka : k = a
    · subst hka
      simp only [List.lookup, beq_self_eq_true] at h
      have hbv : b = v := by simpa using h
      rw [← hbv]
      exact List.mem_cons_self _ _
    · have hbeq : (k == a) = false := by simpa using hka
      simp only [List.lookup, hbeq] at h
      exact List.mem_cons_of_mem _ (ih h)

lemma lookup_eq_of_mem_nodup {α : Type} {l : List (Nat × α)}
    (hn : (l.map Prod.fst).Nodup) {k : Nat} {v : α} (h : (k, v) ∈ l) :
    l.lookup k = some v := by
  induction l with
  | nil => simp at h
  | cons kv rest ih =>
    obtain ⟨a, b⟩ := kv
    simp only [List.map_cons, List.nodup_cons] at hn
    rcases List.mem_cons.mp h with heq | hmem
    · simp only [Prod.mk.injEq] at heq
      obtain ⟨rfl, rfl⟩ := heq
      simp [List.lookup]
    · have hka : k ≠ a := by
        intro hc
        subst hc
        exact hn.1 (List.mem_map.mpr ⟨(k, v), hmem, rfl⟩)
      have hbeq : (k == a) = false := by simpa using hka
      simp only [List.lookup, hbeq]
      exact ih hn.2 hmem

lemma iterate_clonT_go_map_fst {α : Type} [Inhabited α]
    (clonT : List (Nat × Series α)) :
    ∀ (mms : List Nat) (p2c : Series α),
      (iterate_clonT_go clonT mms p2c).map Prod.fst = mms := by
  intro mms
  induction mms with
  | nil => intro p2c; rfl
  | cons mm rest ih => intro p2c; simp [iterate_clonT_go, ih]

lemma ClonSpec_congr {α : Type} (clonT : List (Nat × Series α))
    (P Q : Nat → Prop) (h : ∀ k ∈ clonT.map Prod.fst, (P k ↔ Q k)) (p : Nat) (v : α) :
    ClonSpec clonT P p v ↔ ClonSpec clonT Q p v := by
  unfold ClonSpec
  constructor
  · rintro ⟨mm, s, hmem, hP, hl, hmax⟩
    refine ⟨mm, s, hmem, (h mm (List.mem_map.mpr ⟨(mm, s), hmem, rfl⟩)).mp hP, hl, ?_⟩
    intro mm' s' hmem' hQ' hs'
    exact hmax mm' s' hmem' ((h mm' (List.mem_map.mpr ⟨(mm', s'), hmem', rfl⟩)).mpr hQ') hs'
  · rintro ⟨mm, s, hmem, hQ, hl, hmax⟩
    refine ⟨mm, s, hmem, (h mm (List.mem_map.mpr ⟨(mm, s), hmem, rfl⟩)).mpr hQ, hl, ?_⟩
    intro mm' s' hmem' hP' hs'
    exact hmax mm' s' hmem' ((h mm' (List.mem_map.mpr ⟨(mm', s'), hmem', rfl⟩)).mp hP') hs'

lemma iterate_clonT_go_spec {α : Type} [Inhabited α]
    (clonT : List (Nat × Series α))
    (hkeys : (clonT.map Prod.fst).Nodup)
    (hinner : ∀ ms ∈ clonT, ((ms : Nat × Series α).2.map Prod.fst).Nodup) :
    ∀ (mms : List Nat) (p2c : Series α),
      mms.Pairwise (· < ·) →
      (∀ m ∈ mms, m ∈ clonT.map Prod.fst) →
      (∀ k ∈ clonT.map Prod.fst, k ∉ mms → ∀ m ∈ mms, k < m) →
      (∀ q w, p2c.lookup q = some w ↔ ClonSpec clonT (fun k => k ∉ mms) q w) →
      ∀ t snap, (t, snap) ∈ iterate_clonT_go clonT mms p2c →
        ∀ p v, snap.lookup p = some v ↔ ClonSpec clonT (fun k => k ≤ t) p v := by
  intro mms
  induction mms with
  | nil =>
    intro p2c _ _ _ _ t snap hmem
    simp [iterate_clonT_go] at hmem
  | cons mm rest ih =>
    intro p2c hpair hsub hlt hinv t snap hmem
    have hpair' := List.pairwise_cons.mp hpair
    have hmm_not_rest : mm ∉ rest := fun hc => lt_irrefl mm (hpair'.1 mm hc)
    have hmmk : mm ∈ clonT.map Prod.fst := hsub mm (List.mem_cons_self _ _)
    obtain ⟨s_mm, hs_mm⟩ : ∃ s, clonT.lookup mm = some s := by
      cases hl : clonT.lookup mm with
      | none =>
        have hx := lookup_isSome_of_mem_keys clonT mm hmmk
        rw [hl] at hx
        simp at hx
      | some s => exact ⟨s, rfl⟩
    have hmem_mm : (mm, s_mm) ∈ clonT := mem_of_lookup_eq_some hs_mm
    have hval : (clonT.lookup mm).getD [] = s_mm := by rw [hs_mm]; rfl
    have hfold : ∀ q, ((((clonT.lookup mm).getD []).foldl
        (fun d kv => dict_update d kv.1 kv.2) p2c).lookup q)
          = opt_orelse (s_mm.lookup q) (p2c.lookup q) := by
      intro q
      rw [hval]
      exact fold_update_lookup s_mm (hinner (mm, s_mm) hmem_mm) p2c q
    have hinv' : ∀ q w, (((clonT.lookup mm).getD []).foldl
        (fun d kv => dict_update d kv.1 kv.2) p2c).lookup q = some w
          ↔ ClonSpec clonT (fun k => k ∉ rest) q w := by
      intro q w
      rw [hfold q]
      cases hsq : s_mm.lookup q with
      | some w0 =>
        rw [show opt_orelse (some w0) (p2c.lookup q) = some w0 from rfl]
        constructor
        · intro hw
          have hww : w0 = w := by simpa using hw
          subst hww
          refine ⟨mm, s_mm, hmem_mm, hmm_not_rest, hsq, ?_⟩
          intro mm' s' hmem' hnr' _
          by_cases hmm' : mm' = mm
          · omega
          · have hx : mm' ∉ mm :: rest := by simp [hmm', hnr']
            exact le_of_lt (hlt mm' (List.mem_map.mpr ⟨(mm', s'), hmem', rfl⟩) hx
              mm (List.mem_cons_self _ _))
        · rintro ⟨mmw, sw, hmemw, hnrw, hlw, hmaxw⟩
          have h1 : mm ≤ mmw := hmaxw mm s_mm hmem_mm hmm_not_rest (by rw [hsq]; rfl)
          have h2 : mmw ≤ mm := by
            by_cases hmmw : mmw = mm
            · omega
            · have hx : mmw ∉ mm :: rest := by simp [hmmw, hnrw]
              exact le_of_lt (hlt mmw (List.mem_map.mpr ⟨(mmw, sw), hmemw, rfl⟩) hx
                mm (List.mem_cons_self _ _))
          have hmmw_eq : mmw = mm := le_antisymm h2 h1
          subst hmmw_eq
          have hsw : sw = s_mm :=
            Option.some.inj ((lookup_eq_of_mem_nodup hkeys hmemw).symm.trans hs_mm)
          subst hsw
          rw [hsq] at hlw
          exact hlw
      | none =>
        rw [show opt_orelse (none : Option α) (p2c.lookup q) = p2c.lookup q from rfl]
        rw [hinv q w]
        unfold ClonSpec
        constructor
        · rintro ⟨mmw, sw, hmemw, hPw, hlw, hmaxw⟩
          refine ⟨mmw, sw, hmemw, fun hc => hPw (List.mem_cons_of_mem _ hc), hlw, ?_⟩
          intro mm' s' hmem' hnr' hsome'
          by_cases hmm' : mm' = mm
          · subst hmm'
            have hs' : s' = s_mm :=
              Option.some.inj ((lookup_eq_of_mem_nodup hkeys hmem').symm.trans hs_mm)
            subst hs'
            rw [hsq] at hsome'
            simp at hsome'
          · have hx : mm' ∉ mm :: rest := by simp [hmm', hnr']
            exact hmaxw mm' s' hmem' hx hsome'
        · rintro ⟨mmw, sw, hmemw, hPw, hlw, hmaxw⟩
          have hmmw_ne : mmw ≠ mm := by
            intro hc
            subst hc
            have hsw : sw = s_mm :=
              Option.some.inj ((lookup_eq_of_mem_nodup hkeys hmemw).symm.trans hs_mm)
            rw [hsw, hsq] at hlw
            simp at hlw
          refine ⟨mmw, sw, hmemw, by simp [hmmw_ne, hPw], hlw, ?_⟩
          intro mm' s' hmem' hnm' hsome'
          exact hmaxw mm' s' hmem' (fun hc => hnm' (List.mem_cons_of_mem _ hc)) hsome'
    simp only [iterate_clonT_go] at hmem
    rcases List.mem_cons.mp hmem with heq | hrest_mem
    · simp only [Prod.mk.injEq] at heq
      obtain ⟨rfl, rfl⟩ := heq
      intro p v
      rw [sorted_series_lookup, hinv' p v]
      apply ClonSpec_congr
      intro k hk
      constructor
      · intro hknr
        by_cases hkm : k = t
        · omega
        · have hx : k ∉ t :: rest := by simp [hkm, hknr]
          exact le_of_lt (hlt k hk hx t (List.mem_cons_self _ _))
      · intro hkle hkr
        exact absurd hkle (not_le.mpr (hpair'.1 k hkr))
    · refine ih _ hpair'.2 (fun m hm => hsub m (List.mem_cons_of_mem _ hm)) ?_ hinv'
        t snap hrest_mem
      intro k hk hkr m hm
      by_cases hkm : k = mm
      · subst hkm
        exact hpair'.1 m hm
      · exact hlt k hk (by simp [hkm, hkr]) m (List.mem_cons_of_mem _ hm)

/-- C2: the diversity-mode threshold iterator visits the threshold keys
in ascending order (its output keys are the sorted input keys) and, in
the snapshot yielded at threshold `t`, a position reads value `v` exactly
when `v` is the value recorded for that position at the highest input
threshold `≤ t` whose series mentions the position — in particular a
position touched only at lower thresholds is retained unchanged. -/
theorem c2_iterate_clonT_overwrite {α : Type} [Inhabited α]
    (clonT : List (Nat × Series α))
    (hkeys : (clonT.map Prod.fst).Nodup)
    (hinner : ∀ ms ∈ clonT, ((ms : Nat × Series α).2.map Prod.fst).Nodup) :
    ((iterate_clonT_mms clonT).map Prod.fst).Pairwise (· ≤ ·)
  ∧ ((iterate_clonT_mms clonT).map Prod.fst).Perm (clonT.map Prod.fst)
  ∧ ∀ t snap, (t, snap) ∈ iterate_clonT_mms clonT →
      ∀ p v, snap.lookup p = some v ↔ ClonSpec clonT (fun k => k ≤ t) p v := by
  have hmapfst : (iterate_clonT_mms clonT).map Prod.fst
      = (clonT.map Prod.fst).insertionSort (· ≤ ·) :=
    iterate_clonT_go_map_fst clonT _ []
  have hsorted : ((clonT.map Prod.fst).insertionSort (· ≤ ·)).Pairwise (· ≤ ·) :=
    List.sorted_insertionSort (· ≤ ·) _
  have hperm := List.perm_insertionSort (· ≤ ·) (clonT.map Prod.fst)
  have hnodup : ((clonT.map Prod.fst).insertionSort (· ≤ ·)).Nodup :=
    hperm.nodup_iff.mpr hkeys
  have hpairlt : ((clonT.map Prod.fst).insertionSort (· ≤ ·)).Pairwise (· < ·) :=
    (hsorted.and hnodup).imp (fun h => lt_of_le_of_ne h.1 h.2)
  refine ⟨hmapfst ▸ hsorted, hmapfst ▸ hperm, ?_⟩
  exact iterate_clonT_go_spec clonT hkeys hinner
    ((clonT.map Prod.fst).insertionSort (· ≤ ·)) []
    hpairlt (fun m hm => hperm.mem_iff.mp hm)
    (fun k hk hknot _ _ => absurd (hperm.mem_iff.mpr hk) hknot)
    (fun q w => by
      constructor
      · intro h
        simp [List.lookup] at h
      · rintro ⟨mmw, sw, hmemw, hPw, _, _⟩
        exact absurd (hperm.mem_iff.mpr (List.mem_map.mpr ⟨(mmw, sw), hmemw, rfl⟩)) hPw)

/-- Witness for C2 at a concrete profile: at threshold 2 the value of
position 5 is the one written at threshold 2 (overwriting threshold 0). -/
theorem c2_iterate_clonT_overwrite_witness :
    ClonSpec ([(0, [(5, 9)]), (2, [(5, 3), (7, 1)])] : List (Nat × Series Nat))
      (fun k => k ≤ 2) 5 3 :=
  ((c2_iterate_clonT_overwrite [(0, [(5, 9)]), (2, [(5, 3), (7, 1)])] (by decide)
      (by decide)).2.2 2 [(5, 3), (7, 1)] (by decide) 5 3).mp (by decide)

lemma iterate_commands_go_flatten (s2g : String → Nat) (stp : List String)
    (T : ℚ) :
    ∀ (rest : List String) (seconds : ℚ) (cmds : List String),
      (iterate_commands_go s2g stp T rest seconds cmds).flatten
        = cmds ++ rest.filter (fun s => decide (s ∈ stp)) := by
  intro rest
  induction rest with
  | nil => intro seconds cmds; simp [iterate_commands_go]
  | cons s rest ih =>
    intro seconds cmds
    simp only [iterate_commands_go]
    by_cases hs : s ∈ stp
    · rw [if_pos hs]
      by_cases hcut : T ≤ seconds + calc_estimated_runtime (s2g s)
      · rw [if_pos hcut]
        rw [List.flatten_cons, ih 0 []]
        simp [List.filter_cons, hs]
      · rw [if_neg hcut, ih]
        simp [List.filter_cons, hs]
    · rw [if_neg hs, ih]
      simp [List.filter_cons, hs]

lemma iterate_commands_go_ne_nil (s2g : String → Nat) (stp : List String)
    (T : ℚ) :
    ∀ (rest : List String) (seconds : ℚ) (cmds : List String),
      iterate_commands_go s2g stp T rest seconds cmds ≠ [] := by
  intro rest
  induction rest with
  | nil => intro seconds cmds; simp [iterate_commands_go]
  | cons s rest ih =>
    intro seconds cmds
    simp only [iterate_commands_go]
    by_cases hs : s ∈ stp
    · rw [if_pos hs]
      by_cases hcut : T ≤ seconds + calc_estimated_runtime (s2g s)
      · rw [if_pos hcut]; simp
      · rw [if_neg hcut]; exact ih _ _
    · rw [if_neg hs]; exact ih _ _

lemma iterate_commands_go_length (s2g : String → Nat) (stp : List String)
    (T : ℚ) :
    ∀ (rest : List String) (seconds : ℚ) (cmds : List String), 0 ≤ seconds →
      ((iterate_commands_go s2g stp T rest seconds cmds).length : ℚ) * T
        ≤ ((rest.filter (fun s => decide (s ∈ stp))).map
            (fun s => calc_estimated_runtime (s2g s))).sum + seconds + T := by
  intro rest
  induction rest with
  | nil =>
    intro seconds cmds hsec
    simp only [iterate_commands_go, List.length_cons, List.length_nil,
      List.filter_nil, List.map_nil, List.sum_nil]
    push_cast
    linarith
  | cons s rest ih =>
    intro seconds cmds hsec
    have hcost : (0 : ℚ) ≤ calc_estimated_runtime (s2g s) := by
      unfold calc_estimated_runtime
      positivity
    simp only [iterate_commands_go]
    by_cases hs : s ∈ stp
    · have hdec : decide (s ∈ stp) = true := by simpa using hs
      rw [if_pos hs]
      rw [List.filter_cons, if_pos hdec]
      simp only [List.map_cons, List.sum_cons]
      by_cases hcut : T ≤ seconds + calc_estimated_runtime (s2g s)
      · rw [if_pos hcut]
        have h := ih 0 [] le_rfl
        simp only [List.length_cons]
        push_cast
        push_cast at h
        nlinarith [h]
      · rw [if_neg hcut]
        have h := ih (seconds + calc_estimated_runtime (s2g s)) (cmds ++ [s])
          (by linarith)
        linarith
    · have hdec : ¬(decide (s ∈ stp) = true) := by simpa using hs
      rw [if_neg hs]
      rw [List.filter_cons, if_neg hdec]
      exact ih seconds cmds hsec

lemma sum_const_of_all_eq (l : List String) (f : String → ℚ) (c : ℚ)
    (h : ∀ s ∈ l, f s = c) : (l.map f).sum = l.length * c := by
  induction l with
  | nil => simp
  | cons s rest ih =>
    simp only [List.map_cons, List.sum_cons, List.length_cons]
    rw [h s (List.mem_cons_self _ _), ih (fun x hx => h x (List.mem_cons_of_mem _ hx))]
    push_cast
    ring

/-- C5 (amended): for N equal-cost scaffolds the scheduler emits at most
`ceil(total_cost / target_cost) + 1` batches — the `+ 1` accounts for the
unconditionally emitted final partial batch, which is empty whenever the
last scaffold exactly completed a batch (see the counterexample for the
claimed bound without `+ 1`); every scaffold of the
annotated-and-profiled intersection appears in exactly one batch, no
other scaffold appears, and the batch list is never empty. -/
theorem c5_iterate_commands_amended (stp : List String) (Gdb : List GeneRow)
    (s2g : String → Nat) (processes : Nat) (c : ℚ)
    (hnodup : stp.Nodup) (hne : stp ≠ [])
    (hsub : ∀ s ∈ stp, s ∈ Gdb.map GeneRow.scaffold)
    (hcost : ∀ s ∈ stp, calc_estimated_runtime (s2g s) = c) (hc : 0 < c) :
    ((iterate_commands stp Gdb s2g processes).length : ℤ)
      ≤ ⌈((stp.length : ℚ) * c)
          / (min 60 ((stp.length : ℚ) * c / ((processes : ℚ) + 1)))⌉ + 1
  ∧ (∀ s ∈ stp, ((iterate_commands stp Gdb s2g processes).flatten).count s = 1)
  ∧ (∀ s, s ∉ stp → ((iterate_commands stp Gdb s2g processes).flatten).count s = 0)
  ∧ iterate_commands stp Gdb s2g processes ≠ [] := by
  have hsum : (stp.map (fun s => calc_estimated_runtime (s2g s))).sum
      = (stp.length : ℚ) * c := sum_const_of_all_eq stp _ c hcost
  set T : ℚ := min 60 ((stp.length : ℚ) * c / ((processes : ℚ) + 1)) with hT_def
  have hNq : (0 : ℚ) < (stp.length : ℚ) := by
    have := List.length_pos.mpr hne
    exact_mod_cast this
  have hNc : 0 < (stp.length : ℚ) * c := mul_pos hNq hc
  have hT : 0 < T := lt_min (by norm_num) (div_pos hNc (by positivity))
  have hunfold : iterate_commands stp Gdb s2g processes
      = iterate_commands_go s2g stp T
          (((Gdb.map GeneRow.scaffold).dedup).insertionSort (· ≤ ·)) 0 [] := by
    rw [hT_def]
    simp only [iterate_commands]
    rw [hsum]
  have hGnodup : (((Gdb.map GeneRow.scaffold).dedup).insertionSort (· ≤ ·)).Nodup :=
    (List.perm_insertionSort _ _).nodup_iff.mpr (List.nodup_dedup _)
  have hGmem : ∀ s ∈ stp, s ∈ ((Gdb.map GeneRow.scaffold).dedup).insertionSort (· ≤ ·) :=
    fun s hs => (List.perm_insertionSort _ _).mem_iff.mpr (List.mem_dedup.mpr (hsub s hs))
  have hflat : (iterate_commands stp Gdb s2g processes).flatten
      = (((Gdb.map GeneRow.scaffold).dedup).insertionSort (· ≤ ·)).filter
          (fun s => decide (s ∈ stp)) := by
    rw [hunfold, iterate_commands_go_flatten]
    rfl
  have hfnodup : ((((Gdb.map GeneRow.scaffold).dedup).insertionSort (· ≤ ·)).filter
      (fun s => decide (s ∈ stp))).Nodup := hGnodup.filter _
  have hfmem : ∀ s, s ∈ (((Gdb.map GeneRow.scaffold).dedup).insertionSort (· ≤ ·)).filter
      (fun s => decide (s ∈ stp)) ↔ s ∈ stp := by
    intro s
    simp only [List.mem_filter, decide_eq_true_eq]
    exact ⟨fun h => h.2, fun h => ⟨hGmem s h, h⟩⟩
  have hflen : ((((Gdb.map GeneRow.scaffold).dedup).insertionSort (· ≤ ·)).filter
      (fun s => decide (s ∈ stp))).length = stp.length := by
    rw [← List.toFinset_card_of_nodup hfnodup, ← List.toFinset_card_of_nodup hnodup]
    congr 1
    ext s
    simp only [List.mem_toFinset]
    exact hfmem s
  have hfsum : (((((Gdb.map GeneRow.scaffold).dedup).insertionSort (· ≤ ·)).filter
      (fun s => decide (s ∈ stp))).map
        (fun s => calc_estimated_runtime (s2g s))).sum = (stp.length : ℚ) * c := by
    rw [sum_const_of_all_eq _ _ c (fun s hs => hcost s ((hfmem s).mp hs)), hflen]
  refine ⟨?_, ?_, ?_, ?_⟩
  · have hlen := iterate_commands_go_length s2g stp T
      (((Gdb.map GeneRow.scaffold).dedup).insertionSort (· ≤ ·)) 0 [] le_rfl
    rw [hfsum] at hlen
    rw [hunfold]
    have h1 : (((iterate_commands_go s2g stp T
        (((Gdb.map GeneRow.scaffold).dedup).insertionSort (· ≤ ·)) 0 []).length : ℚ) - 1)
          * T ≤ (stp.length : ℚ) * c := by nlinarith [hlen]
    have h2 := (le_div_iff₀ hT).mpr h1
    have h3 := Int.le_ceil ((stp.length : ℚ) * c / T)
    have h4 : ((iterate_commands_go s2g stp T
        (((Gdb.map GeneRow.scaffold).dedup).insertionSort (· ≤ ·)) 0 []).length : ℚ)
          ≤ (⌈(stp.length : ℚ) * c / T⌉ : ℚ) + 1 := by linarith
    exact_mod_cast h4
  · intro s hs
    rw [hflat]
    exact List.count_eq_one_of_mem hfnodup ((hfmem s).mpr hs)
  · intro s hs
    rw [hflat]
    exact List.count_eq_zero_of_not_mem (fun hc2 => hs ((hfmem s).mp hc2))
  · rw [hunfold]
    exact iterate_commands_go_ne_nil s2g stp T _ 0 []

/-- Seven equal-cost scaffolds, for the C5 counterexample. -/
def cexStp7 : List String := ["s1", "s2", "s3", "s4", "s5", "s6", "s7"]

/-- A gene table with one gene per scaffold, for the C5 counterexample. -/
def cexGdb7 : List GeneRow :=
  [⟨"g1", "s1", PyVal.str "1", 0, 2⟩, ⟨"g2", "s2", PyVal.str "1", 0, 2⟩,
   ⟨"g3", "s3", PyVal.str "1", 0, 2⟩, ⟨"g4", "s4", PyVal.str "1", 0, 2⟩,
   ⟨"g5", "s5", PyVal.str "1", 0, 2⟩, ⟨"g6", "s6", PyVal.str "1", 0, 2⟩,
   ⟨"g7", "s7", PyVal.str "1", 0, 2⟩]

lemma iterate_commands_go_all_cut (s2g : String → Nat) (stp : List String)
    (T : ℚ) :
    ∀ (groups : List String), (∀ s ∈ groups, s ∈ stp) →
      (∀ s ∈ groups, T ≤ 0 + calc_estimated_runtime (s2g s)) →
      iterate_commands_go s2g stp T groups 0 []
        = groups.map (fun s => [s]) ++ [[]] := by
  intro groups
  induction groups with
  | nil => intro _ _; rfl
  | cons s rest ih =>
    intro hmem hcut
    simp only [iterate_commands_go]
    rw [if_pos (hmem s (List.mem_cons_self _ _)),
        if_pos (hcut s (List.mem_cons_self _ _))]
    rw [ih (fun x hx => hmem x (List.mem_cons_of_mem _ hx))
        (fun x hx => hcut x (List.mem_cons_of_mem _ hx))]
    simp

/-- Counterexample to C5 as stated: seven scaffolds of one gene each with
the default six processes give target cost = per-scaffold cost, so every
scaffold cuts its own batch and the unconditional final yield adds an
empty eighth batch: 8 batches, while `ceil(total/target) = 7`. -/
theorem c5_counterexample :
    (iterate_commands cexStp7 cexGdb7 (fun _ => 1) 6).length = 8
  ∧ (⌈((cexStp7.length : ℚ) * (1 / 100))
        / (min 60 (((cexStp7.length : ℚ) * (1 / 100)) / ((6 : ℚ) + 1)))⌉ : ℤ) = 7
  ∧ ¬((8 : ℤ) ≤ 7) := by
  have hd : (cexGdb7.map GeneRow.scaffold).dedup = cexStp7 := by decide
  have hmemg : ∀ s ∈ ((cexGdb7.map GeneRow.scaffold).dedup).insertionSort (· ≤ ·),
      s ∈ cexStp7 := by
    intro s hs
    rw [← hd]
    exact (List.perm_insertionSort _ _).mem_iff.mp hs
  have heval : iterate_commands cexStp7 cexGdb7 (fun _ => 1) 6
      = (((cexGdb7.map GeneRow.scaffold).dedup).insertionSort (· ≤ ·)).map
          (fun s => [s]) ++ [[]] := by
    simp only [iterate_commands]
    refine iterate_commands_go_all_cut _ _ _ _ hmemg ?_
    intro s _
    refine le_trans (min_le_right _ _) ?_
    norm_num [cexStp7, calc_estimated_runtime]
  refine ⟨?_, ?_, by decide⟩
  · rw [heval]
    rw [List.length_append, List.length_map,
      (List.perm_insertionSort (· ≤ ·) ((cexGdb7.map GeneRow.scaffold).dedup)).length_eq,
      hd]
    rfl
  · have hlen : ((cexStp7.length : ℚ) : ℚ) = 7 := by norm_num [cexStp7]
    rw [hlen]
    have h : ((7 : ℚ) * (1 / 100)) / (min 60 (((7 : ℚ) * (1 / 100)) / ((6 : ℚ) + 1)))
        = 7 := by
      rw [min_eq_right (by norm_num)]
      norm_num
    rw [h]
    norm_num

/-- Three equal-cost scaffolds, for the C5 witness. -/
def wStp3 : List String := ["s1", "s2", "s3"]

/-- A gene table with one gene per scaffold, for the C5 witness. -/
def wGdb3 : List GeneRow :=
  [⟨"g1", "s1", PyVal.str "1", 0, 2⟩, ⟨"g2", "s2", PyVal.str "1", 0, 2⟩,
   ⟨"g3", "s3", PyVal.str "1", 0, 2⟩]

/-- Witness for C5 at a concrete input: scaffold `s2` lands in exactly
one batch and the batch count meets the amended bound. -/
theorem c5_iterate_commands_amended_witness :
    ((iterate_commands wStp3 wGdb3 (fun _ => 1) 6).flatten).count "s2" = 1
  ∧ ((iterate_commands wStp3 wGdb3 (fun _ => 1) 6).length : ℤ)
      ≤ ⌈((wStp3.length : ℚ) * (1 / 100))
          / (min 60 (((wStp3.length : ℚ) * (1 / 100)) / ((6 : ℚ) + 1)))⌉ + 1 := by
  have h := c5_iterate_commands_amended wStp3 wGdb3 (fun _ => 1) 6 (1 / 100)
    (by decide) (by decide) (by decide)
    (fun s _ => by norm_num [calc_estimated_runtime]) (by norm_num)
  exact ⟨h.2.1 "s2" (by decide), by exact_mod_cast h.1⟩
